import Mathlib

/-!
Shallow embedding of the result reconciliation and evaluation engine of the
privacy-policy LLM evaluation pipeline: the result merger (`combine_results`,
from combinator.py), the similarity filter (`filter_results`, from
evaluate.py, together with an embedding of difflib.SequenceMatcher's ratio),
the metrics engine (`evaluate`, from evaluate.py / compare.py, whose
sklearn.metrics.classification_report call is modelled from the spec), and
the delta reporter (`print_delta`, from compare.py).

Python records are JSON objects; the four identity fields are read with
dict.get, so a missing field behaves as the placeholder None.  We embed a
record as a structure whose four identity fields are Option String (none is
the placeholder) plus an uninterpreted bag of extra fields that the core
preserves but never inspects.
-/

/-- One prediction record: the four identity fields (each possibly missing,
with none as the shared placeholder used by dict.get) and the remaining
fields of the JSON object, carried verbatim and never compared. -/
structure PredictionRecord where
  policy_id : Option String
  span : Option String
  gold : Option String
  pred : Option String
  extra : List (String × String)
deriving DecidableEq, Repr

instance : Inhabited PredictionRecord := ⟨⟨none, none, none, none, []⟩⟩

/-- Identity key used for deduplication, mirroring
`(r.get('policy_id'), r.get('span'), r.get('gold'), r.get('pred'))`
in combinator.py. -/
def recKey (r : PredictionRecord) :
    Option String × Option String × Option String × Option String :=
  (r.policy_id, r.span, r.gold, r.pred)

/-- The fixed 12-label taxonomy FULL_LABEL_NAMES from promt_templates.py. -/
def FULL_LABEL_NAMES : List String :=
  ["Updated Privacy Policy",
   "Categories of Personal Information Sold",
   "Categories of Personal Information Shared / Disclosed",
   "Categories of Personal Information Collected",
   "Description of Right to Delete",
   "Description of Right to Correct Information",
   "Description of Right to Know PI Collected",
   "Description of Right to Know PI sold / shared",
   "Description of Right to Opt-out of sale of PI",
   "Description of Right to Limit use of PI",
   "Description of Right to Non-discrimination on exercising rights",
   "Methods to exercise rights"]

/-- An ordered mapping from model_id to that model's record list (a Python
dict keyed by model_id, in insertion order). -/
abbrev ResultSet : Type := List (String × List PredictionRecord)

/-- The per-model deduplication loop of combine_results (combinator.py
lines 71-79): `seen` holds the keys of the records accumulated so far, and a
new record is appended exactly when its key is unseen. -/
def combineModel (existing : List PredictionRecord) (records : List PredictionRecord) :
    List PredictionRecord :=
  records.foldl
    (fun acc r => if recKey r ∈ acc.map recKey then acc else acc ++ [r]) existing

/-- Python dict update used by combine_results: if model_id is present its
list is extended through the dedup loop, otherwise a fresh entry is appended
at the end (combinator.py lines 68-79). -/
def upsertModel : ResultSet → String → List PredictionRecord → ResultSet
  | [], m, records => [(m, combineModel [] records)]
  | e :: comb, m, records =>
      if e.1 = m then (e.1, combineModel e.2 records) :: comb
      else e :: upsertModel comb m records

/-- Processing of one input file: every (model_id, records) item of the file
is merged into the accumulated dictionary in file order. -/
def foldFile (comb : ResultSet) (data : ResultSet) : ResultSet :=
  data.foldl (fun c e => upsertModel c e.1 e.2) comb

/-- combine_results (combinator.py lines 64-79), with file contents passed
directly in place of paths: files are processed in order into an initially
empty dictionary.  File reading, JSON parsing and the optional write of the
combined output are I/O outside the embedding. -/
def combine_results (inputs : List ResultSet) : ResultSet :=
  inputs.foldl foldFile []

/-- All records the input sequence carries for one model, in processing
order (files in order; inside a file the model's list, if present). -/
def allInput (m : String) (inputs : List ResultSet) : List PredictionRecord :=
  inputs.flatMap (fun d => (List.lookup m d).getD [])

/-- Length of the common run of two character lists starting at their heads
(the length of the matching block anchored at a fixed pair of positions). -/
def commonRun : List Char → List Char → ℕ
  | c :: cs, d :: ds => if c = d then commonRun cs ds + 1 else 0
  | _, _ => 0

/-- Modelled from the spec: difflib.SequenceMatcher.find_longest_match is
Python standard-library code outside this repository.  Per the spec (§4.2,
§9) the ratio comes from greedy longest contiguous matching blocks; difflib
selects the longest block, breaking ties towards the smallest start in the
first string and then the smallest start in the second (no junk heuristic:
filter_results creates the matcher with isjunk=None, and the autojunk
popularity rule only engages on second strings of 200 characters or more,
which the embedding does not model).  The fold realises that selection:
start pairs (i, j) are scanned in lexicographic order and the first strict
improvement in run length is kept. -/
def findLongestMatch (a b : List Char) : ℕ × ℕ × ℕ :=
  (List.range a.length).foldl (fun best i =>
    (List.range b.length).foldl (fun best' j =>
      let k := commonRun (a.drop i) (b.drop j)
      if best'.2.2 < k then (i, j, k) else best') best) (0, 0, 0)

/-- Modelled from the spec: the total number of matched characters across
the recursive decomposition of difflib's get_matching_blocks — match the
longest block, then recurse on the parts left and right of it.  Structural
fuel bounds the recursion; fuel a.length + b.length is sufficient because
every recursive call strictly shrinks the combined length. -/
def matchTotalF : ℕ → List Char → List Char → ℕ
  | 0, _, _ => 0
  | fuel + 1, a, b =>
      let best := findLongestMatch a b
      if best.2.2 = 0 then 0
      else
        best.2.2 + matchTotalF fuel (a.take best.1) (b.take best.2.1) +
          matchTotalF fuel (a.drop (best.1 + best.2.2)) (b.drop (best.2.1 + best.2.2))

/-- Matched character total at sufficient fuel. -/
def matchTotal (a b : List Char) : ℕ := matchTotalF (a.length + b.length) a b

/-- difflib.SequenceMatcher(None, sa, sb).ratio(): twice the matched
character count over the combined length, as an exact rational (1 when both
strings are empty, as in difflib). -/
def similarity (sa sb : String) : ℚ :=
  if sa.data.length + sb.data.length = 0 then 1
  else mkRat (2 * matchTotal sa.data sb.data) (sa.data.length + sb.data.length)

/-- Plain dict indexing r['span'] / r['gold'] as used by filter_results: a
missing field raises KeyError (unlike the merger's dict.get). -/
def require (o : Option String) (msg : String) : Except String String :=
  match o with
  | some s => Except.ok s
  | none => Except.error msg

/-- policy_groups.setdefault(pid, []).append(idx) of evaluate.py line 54:
append the index to this policy_id's entry, creating the entry at the end
of the dict when absent. -/
def setdefaultAppend : List (Option String × List ℕ) → Option String → ℕ →
    List (Option String × List ℕ)
  | [], p, i => [(p, [i])]
  | (q, l) :: gs, p, i =>
      if q = p then (q, l ++ [i]) :: gs else (q, l) :: setdefaultAppend gs p i

/-- Grouping of record indices by policy_id (evaluate.py lines 51-54);
records missing policy_id group under the placeholder none. -/
def policy_groups (results : List PredictionRecord) :
    List (Option String × List ℕ) :=
  results.enum.foldl (fun gs p => setdefaultAppend gs p.2.policy_id p.1) []

/-- All ordered index pairs (earlier, later) of one group's index list, as
enumerated by the nested i, j>i loops of filter_results (evaluate.py lines
57-58). -/
def offDiag : List ℕ → List (ℕ × ℕ)
  | [] => []
  | x :: xs => xs.map (fun y => (x, y)) ++ offDiag xs

/-- The index pairs inspected by filter_results: for every policy group in
dict order, every ordered pair of its indices. -/
def groupPairs (results : List PredictionRecord) : List (ℕ × ℕ) :=
  (policy_groups results).flatMap (fun g => offDiag g.2)

/-- First entry of a group dictionary for a policy_id (empty list when
absent). -/
def getGroup : List (Option String × List ℕ) → Option String → List ℕ
  | [], _ => []
  | (q, l) :: gs, p => if q = p then l else getGroup gs p

/-- Body of the pair loop of filter_results (evaluate.py lines 59-70): read
both spans and both gold labels in source order (a missing one raises
KeyError); when the gold labels differ and the similarity ratio reaches the
threshold, mark both indices for removal. -/
def pairStep (results : List PredictionRecord) (threshold : ℚ)
    (s : Finset ℕ) (ab : ℕ × ℕ) : Except String (Finset ℕ) := do
  let r_i := results.getD ab.1 default
  let r_j := results.getD ab.2 default
  let span_i ← require r_i.span "KeyError: span"
  let span_j ← require r_j.span "KeyError: span"
  let gold_i ← require r_i.gold "KeyError: gold"
  let gold_j ← require r_j.gold "KeyError: gold"
  if gold_i ≠ gold_j then
    if similarity span_i span_j ≥ threshold then
      pure (insert ab.1 (insert ab.2 s))
    else pure s
  else pure s

/-- The to_drop set of filter_results (evaluate.py lines 50-70). -/
def to_drop (results : List PredictionRecord) (threshold : ℚ) :
    Except String (Finset ℕ) :=
  (groupPairs results).foldlM (pairStep results threshold) ∅

/-- filter_results (evaluate.py lines 30-71): keep, in order, exactly the
records whose index was never marked. -/
def filter_results (results : List PredictionRecord) (threshold : ℚ) :
    Except String (List PredictionRecord) := do
  let td ← to_drop results threshold
  pure ((results.enum.filter (fun p => decide (p.1 ∉ td))).map Prod.snd)

/-- Drop condition of one pair, total on records whose span and gold are
present (the placeholder defaults are never reached in that case). -/
def dropCond (results : List PredictionRecord) (threshold : ℚ)
    (ab : ℕ × ℕ) : Bool :=
  let r_i := results.getD ab.1 default
  let r_j := results.getD ab.2 default
  decide (r_i.gold.getD "" ≠ r_j.gold.getD "") &&
    decide (similarity (r_i.span.getD "") (r_j.span.getD "") ≥ threshold)

/-- The value of to_drop on inputs whose spans and gold labels are all
present. -/
def dropFinset (results : List PredictionRecord) (threshold : ℚ) : Finset ℕ :=
  (groupPairs results).foldl
    (fun s ab => if dropCond results threshold ab then insert ab.1 (insert ab.2 s)
     else s) ∅

/-- The survivor list of filter_results on complete inputs. -/
def survivors (results : List PredictionRecord) (threshold : ℚ) :
    List PredictionRecord :=
  (results.enum.filter
    (fun p => decide (p.1 ∉ dropFinset results threshold))).map Prod.snd

/-- Every record carries its span and gold label (filter_results reads both
with plain indexing, so this is what keeps it from raising KeyError). -/
def spanGoldComplete (results : List PredictionRecord) : Prop :=
  ∀ r ∈ results, r.span.isSome ∧ r.gold.isSome

instance (results : List PredictionRecord) :
    Decidable (spanGoldComplete results) := by
  unfold spanGoldComplete; infer_instance

/-- Concrete record used to instantiate proved theorems (the spec's
end-to-end example 1). -/
def exRecord1 : PredictionRecord := ⟨some "p1", some "s1", some "X", some "X", []⟩

/-- Second concrete record of the spec's end-to-end example 1. -/
def exRecord2 : PredictionRecord := ⟨some "p1", some "s2", some "Y", some "X", []⟩

/-- First input file of the spec's end-to-end example 1. -/
def exFileA : ResultSet := [("m1", [exRecord1])]

/-- Second input file of the spec's end-to-end example 1 (its first record
duplicates the record of the first file). -/
def exFileB : ResultSet := [("m1", [exRecord1, exRecord2])]

/-- Per-label entry of a classification report: precision, recall,
f1-score and support. -/
structure Scores where
  precision : ℚ
  «recall» : ℚ
  f1 : ℚ
  support : ℕ
deriving DecidableEq, Repr

/-- A per-model metrics snapshot: one entry per taxonomy label plus the
macro-average entry. -/
abbrev Snapshot : Type := List (String × Scores)

/-- True positives of a label over paired gold/predicted label sequences. -/
def tpCount (y_true y_pred : List String) (label : String) : ℕ :=
  (y_true.zip y_pred).countP (fun q => q.1 == label && q.2 == label)

/-- False positives of a label: predicted as the label, gold different. -/
def fpCount (y_true y_pred : List String) (label : String) : ℕ :=
  (y_true.zip y_pred).countP (fun q => q.2 == label && !(q.1 == label))

/-- False negatives of a label: gold is the label, prediction different. -/
def fnCount (y_true y_pred : List String) (label : String) : ℕ :=
  (y_true.zip y_pred).countP (fun q => q.1 == label && !(q.2 == label))

/-- Modelled from the spec: the per-label scores of
sklearn.metrics.classification_report(y_true, y_pred,
labels=FULL_LABEL_NAMES, zero_division=0, output_dict=True), which is
external library code (spec sections 4.3 and 7): precision = TP/(TP+FP) and
recall = TP/(TP+FN) with a zero denominator scored 0 by the zero_division=0
policy, f1-score the harmonic mean (0 when precision + recall is 0), and
support the count of gold instances of the label. -/
def labelScores (y_true y_pred : List String) (label : String) : Scores :=
  let TP := tpCount y_true y_pred label
  let FP := fpCount y_true y_pred label
  let FN := fnCount y_true y_pred label
  let p : ℚ := if TP + FP = 0 then 0 else mkRat TP (TP + FP)
  let r : ℚ := if TP + FN = 0 then 0 else mkRat TP (TP + FN)
  ⟨p, r, if p + r = 0 then 0 else 2 * p * r / (p + r), TP + FN⟩

/-- Modelled from the spec: the macro-average entry, the unweighted
arithmetic mean of precision, recall and f1 across exactly the taxonomy
labels (spec section 4.3); its support totals the labels' gold counts. -/
def macroScores (y_true y_pred : List String) (labels : List String) : Scores :=
  ⟨(labels.map (fun label => (labelScores y_true y_pred label).precision)).sum
      / labels.length,
   (labels.map (fun label => (labelScores y_true y_pred label).«recall»)).sum
      / labels.length,
   (labels.map (fun label => (labelScores y_true y_pred label).f1)).sum
      / labels.length,
   (labels.map (fun label => (labelScores y_true y_pred label).support)).sum⟩

/-- Modelled from the spec: the MetricsSnapshot shape of section 3 — one
entry per taxonomy label, in taxonomy order, plus a synthetic macro-average
entry. -/
def classificationReport (y_true y_pred : List String)
    (labels : List String) : Snapshot :=
  labels.map (fun label => (label, labelScores y_true y_pred label)) ++
    [("macro avg", macroScores y_true y_pred labels)]

/-- evaluate (evaluate.py lines 74-105, identically compare.py lines
38-74): per model, build the gold and predicted label sequences from the
records (plain indexing r['gold'] and r['pred'], so a missing field raises
KeyError) and score them against the fixed taxonomy; the optional metrics
JSON dump is I/O outside the embedding. -/
def evaluate (combined : List (String × List PredictionRecord)) :
    Except String (List (String × Snapshot)) :=
  combined.mapM (fun e => do
    let y_true ← e.2.mapM (fun r => require r.gold "KeyError: gold")
    let y_pred ← e.2.mapM (fun r => require r.pred "KeyError: pred")
    pure (e.1, classificationReport y_true y_pred FULL_LABEL_NAMES))

/-- The models compared by print_delta: those present in both metrics
mappings (set intersection), sorted (compare.py lines 148-150). -/
def commonModels (metrics1 metrics2 : List (String × Snapshot)) : List String :=
  (((metrics1.map Prod.fst).filter
      (fun m => (metrics2.map Prod.fst).contains m)).dedup).mergeSort
    (fun a b => decide (a ≤ b))

/-- Per-field difference metrics2 minus metrics1 scaled by 100
(compare.py lines 154-158): an absent label contributes 0 per field. -/
def deltaTriple (s1 s2 : Option Scores) : ℚ × ℚ × ℚ :=
  (((s2.map Scores.precision).getD 0 - (s1.map Scores.precision).getD 0) * 100,
   ((s2.map Scores.«recall»).getD 0 - (s1.map Scores.«recall»).getD 0) * 100,
   ((s2.map Scores.f1).getD 0 - (s1.map Scores.f1).getD 0) * 100)

/-- The numeric content rendered by print_delta (compare.py lines 137-166):
for each common model in sorted order, the per-label delta triples in
taxonomy order and the macro-average delta triple.  The fixed-width
formatting with one decimal place is presentation only and not modelled. -/
def print_delta (metrics1 metrics2 : List (String × Snapshot)) :
    List (String × (List (String × (ℚ × ℚ × ℚ)) × (ℚ × ℚ × ℚ))) :=
  (commonModels metrics1 metrics2).map (fun m =>
    let m1 := (metrics1.lookup m).getD []
    let m2 := (metrics2.lookup m).getD []
    (m, (FULL_LABEL_NAMES.map (fun label =>
          (label, deltaTriple (m1.lookup label) (m2.lookup label))),
        deltaTriple (m1.lookup "macro avg") (m2.lookup "macro avg"))))

/-- Record whose span makes the matcher ratio order-sensitive: against
cdpabqe the ratio is 3/7 in this order but 2/7 in the swapped order. -/
def asymRecordA : PredictionRecord :=
  ⟨some "p", some "abxeycd", some "A", some "L", []⟩

/-- Companion record with span cdpabqe and a different gold label in the
same policy group. -/
def asymRecordB : PredictionRecord :=
  ⟨some "p", some "cdpabqe", some "B", some "L", []⟩

/-! ### Theorems -/

theorem combineModel_append (e l₁ l₂ : List PredictionRecord) :
    combineModel e (l₁ ++ l₂) = combineModel (combineModel e l₁) l₂ :=
  List.foldl_append _ _ _ _

theorem combineModel_concat (e l : List PredictionRecord) (r : PredictionRecord) :
    combineModel e (l ++ [r]) =
      if recKey r ∈ (combineModel e l).map recKey then combineModel e l
      else combineModel e l ++ [r] := by
  rw [combineModel_append]; rfl

theorem mem_keys_combineModel (e l : List PredictionRecord)
    (k : Option String × Option String × Option String × Option String) :
    k ∈ (combineModel e l).map recKey ↔
      k ∈ e.map recKey ∨ ∃ r ∈ l, recKey r = k := by
  induction l using List.reverseRecOn with
  | nil => simp [combineModel]
  | append_singleton l r ih =>
      rw [combineModel_concat]
      by_cases hc : recKey r ∈ (combineModel e l).map recKey
      · simp only [hc, if_true, ih]
        constructor
        · rintro (h | ⟨r', hr', hk⟩)
          · exact Or.inl h
          · exact Or.inr ⟨r', by simp [hr'], hk⟩
        · rintro (h | ⟨r', hr', hk⟩)
          · exact Or.inl h
          · rcases List.mem_append.mp hr' with h' | h'
            · exact Or.inr ⟨r', h', hk⟩
            · have : r' = r := by simpa using h'
              subst this; subst hk
              exact (ih.mp hc).imp id id
      · simp only [hc, if_false, List.map_append, List.mem_append, ih]
        constructor
        · rintro ((h | ⟨r', hr', hk⟩) | h)
          · exact Or.inl h
          · exact Or.inr ⟨r', by simp [hr'], hk⟩
          · have : k = recKey r := by simpa using h
            exact Or.inr ⟨r, by simp, this.symm⟩
        · rintro (h | ⟨r', hr', hk⟩)
          · exact Or.inl (Or.inl h)
          · rcases hr' with h' | h'
            · exact Or.inl (Or.inr ⟨r', h', hk⟩)
            · have : r' = r := by simpa using h'
              subst this
              exact Or.inr (by simp [hk])

theorem nodup_keys_combineModel (e l : List PredictionRecord)
    (he : (e.map recKey).Nodup) :
    ((combineModel e l).map recKey).Nodup := by
  induction l using List.reverseRecOn with
  | nil => exact he
  | append_singleton l r ih =>
      rw [combineModel_concat]
      by_cases hc : recKey r ∈ (combineModel e l).map recKey
      · simpa [hc] using ih
      · rw [if_neg hc, List.map_append, List.nodup_append]
        refine ⟨ih, List.nodup_singleton _, ?_⟩
        intro a ha hb
        simp only [List.map_cons, List.map_nil, List.mem_singleton] at hb
        subst hb
        exact hc ha

theorem combineModel_noop (l : List PredictionRecord)
    (h : (l.map recKey).Nodup) : combineModel [] l = l := by
  induction l using List.reverseRecOn with
  | nil => rfl
  | append_singleton l r ih =>
      have h' : (l.map recKey).Nodup ∧ ∀ x ∈ l, ¬recKey x = recKey r := by
        simpa [List.nodup_append] using h
      have hnd := h'.1
      have hr : recKey r ∉ l.map recKey := by
        intro hmem
        rcases List.mem_map.mp hmem with ⟨r', hr', hk⟩
        exact h'.2 r' hr' hk
      rw [combineModel_concat]
      have : recKey r ∉ (combineModel [] l).map recKey := by
        rw [mem_keys_combineModel]
        rintro (h' | ⟨r', hr', hk⟩)
        · simp at h'
        · exact hr (List.mem_map.mpr ⟨r', hr', hk⟩)
      rw [if_neg this, ih hnd]

theorem combineModel_absorb (l l₂ : List PredictionRecord)
    (h : ∀ r ∈ l₂, recKey r ∈ l.map recKey) : combineModel l l₂ = l := by
  induction l₂ with
  | nil => rfl
  | cons r l₂ ih =>
      have hr : recKey r ∈ l.map recKey := h r (by simp)
      show combineModel (if recKey r ∈ l.map recKey then l else l ++ [r]) l₂ = l
      rw [if_pos hr]
      exact ih (fun r' hr' => h r' (by simp [hr']))

theorem combineModel_find_first (l : List PredictionRecord) :
    ∀ r' ∈ combineModel [] l,
      l.find? (fun r => recKey r == recKey r') = some r' := by
  induction l using List.reverseRecOn with
  | nil => intro r' hr'; simp [combineModel] at hr'
  | append_singleton l r ih =>
      intro r' hr'
      rw [combineModel_concat] at hr'
      by_cases hc : recKey r ∈ (combineModel [] l).map recKey
      · rw [if_pos hc] at hr'
        rw [List.find?_append, ih r' hr', Option.or_some]
      · rw [if_neg hc] at hr'
        rcases List.mem_append.mp hr' with h' | h'
        · rw [List.find?_append, ih r' h', Option.or_some]
        · have : r' = r := by simpa using h'
          subst this
          have hnone : l.find? (fun r₀ => recKey r₀ == recKey r') = none := by
            rw [List.find?_eq_none]
            intro x hx hbeq
            apply hc
            rw [mem_keys_combineModel]
            exact Or.inr ⟨x, hx, by simpa using hbeq⟩
          rw [List.find?_append, hnone, Option.none_or]
          simp [List.find?]

theorem combineModel_key_surj (l : List PredictionRecord) :
    ∀ r ∈ l, recKey r ∈ (combineModel [] l).map recKey := by
  intro r hr
  rw [mem_keys_combineModel]
  exact Or.inr ⟨r, hr, rfl⟩

theorem lookup_cons_kv {β : Type} (a k : String) (v : β)
    (es : List (String × β)) :
    List.lookup a ((k, v) :: es) = if a = k then some v else List.lookup a es := by
  by_cases h : a = k
  · subst h; simp [List.lookup]
  · have hb : (a == k) = false := beq_eq_false_iff_ne.mpr h
    simp [List.lookup, hb, h]

theorem lookup_upsert (comb : ResultSet) (m : String)
    (records : List PredictionRecord) (m' : String) :
    List.lookup m' (upsertModel comb m records) =
      if m' = m then some (combineModel ((List.lookup m comb).getD []) records)
      else List.lookup m' comb := by
  induction comb with
  | nil =>
      show List.lookup m' [(m, combineModel [] records)] = _
      rw [lookup_cons_kv]
      by_cases h : m' = m <;> simp [h, List.lookup]
  | cons e comb ih =>
      obtain ⟨k, v⟩ := e
      by_cases he : k = m
      · have hu : upsertModel ((k, v) :: comb) m records
            = (k, combineModel v records) :: comb := by
          simp [upsertModel, he]
        rw [hu, lookup_cons_kv]
        by_cases h : m' = m
        · rw [if_pos (h.trans he.symm), if_pos h, lookup_cons_kv,
            if_pos he.symm]
          simp
        · rw [if_neg (fun hc => h (hc.trans he)), if_neg h, lookup_cons_kv,
            if_neg (fun hc => h (hc.trans he))]
      · have hu : upsertModel ((k, v) :: comb) m records
            = (k, v) :: upsertModel comb m records := by
          simp [upsertModel, he]
        rw [hu, lookup_cons_kv]
        by_cases h : m' = k
        · rw [if_pos h, if_neg (fun hc => he (h.symm.trans hc)),
            lookup_cons_kv, if_pos h]
        · rw [if_neg h, ih, lookup_cons_kv m k v comb,
            if_neg (show ¬m = k from fun hc => he hc.symm),
            lookup_cons_kv m' k v comb, if_neg h]

theorem keys_upsert (comb : ResultSet) (m : String)
    (records : List PredictionRecord) :
    (upsertModel comb m records).map Prod.fst =
      if m ∈ comb.map Prod.fst then comb.map Prod.fst
      else comb.map Prod.fst ++ [m] := by
  induction comb with
  | nil => simp [upsertModel]
  | cons e comb ih =>
      obtain ⟨k, v⟩ := e
      by_cases he : k = m
      · have hmem : m ∈ ((k, v) :: comb).map Prod.fst := by simp [he]
        simp [upsertModel, he, hmem]
      · have hu : upsertModel ((k, v) :: comb) m records
            = (k, v) :: upsertModel comb m records := by
          simp [upsertModel, he]
        rw [hu, List.map_cons, ih, List.map_cons]
        by_cases hm : m ∈ comb.map Prod.fst
        · rw [if_pos hm, if_pos (by simp [hm])]
        · rw [if_neg hm, if_neg (show m ∉ k :: comb.map Prod.fst by
            simp only [List.mem_cons]
            rintro (hc | hc)
            · exact he hc.symm
            · exact hm hc)]
          rfl

theorem nodup_keys_upsert (comb : ResultSet) (m : String)
    (records : List PredictionRecord)
    (h : (comb.map Prod.fst).Nodup) :
    ((upsertModel comb m records).map Prod.fst).Nodup := by
  rw [keys_upsert]
  by_cases hm : m ∈ comb.map Prod.fst
  · simpa [hm]
  · rw [if_neg hm, List.nodup_append]
    refine ⟨h, List.nodup_singleton _, ?_⟩
    intro a ha hb
    simp only [List.mem_singleton] at hb
    subst hb
    exact hm ha

theorem upsert_absent (comb : ResultSet) (m : String)
    (records : List PredictionRecord) (h : m ∉ comb.map Prod.fst) :
    upsertModel comb m records = comb ++ [(m, combineModel [] records)] := by
  induction comb with
  | nil => simp [upsertModel]
  | cons e comb ih =>
      have he : e.1 ≠ m := by
        intro hc
        exact h (by simp [hc])
      simp only [upsertModel, he, if_false, List.cons_append]
      rw [ih (fun hc => h (by simp [hc]))]

theorem upsert_mem_self (comb : ResultSet) (m : String)
    (records : List PredictionRecord)
    (hnd : (comb.map Prod.fst).Nodup) (hmem : (m, records) ∈ comb) :
    upsertModel comb m records = comb := by
  induction comb with
  | nil => simp at hmem
  | cons e comb ih =>
      rcases List.mem_cons.mp hmem with he | he
      · subst he
        have hu : upsertModel ((m, records) :: comb) m records
            = (m, combineModel records records) :: comb := by
          simp [upsertModel]
        rw [hu, combineModel_absorb records records
          (fun r hr => List.mem_map.mpr ⟨r, hr, rfl⟩)]
      · have h1 : e.1 ≠ m := by
          intro hc
          have : m ∈ comb.map Prod.fst := List.mem_map.mpr ⟨(m, records), he, rfl⟩
          rw [List.map_cons, List.nodup_cons] at hnd
          exact hnd.1 (hc ▸ this)
        simp only [upsertModel, h1, if_false]
        rw [ih (by rw [List.map_cons, List.nodup_cons] at hnd; exact hnd.2) he]

theorem lookup_none_of_not_mem_keys (d : ResultSet) (m : String)
    (h : m ∉ d.map Prod.fst) : List.lookup m d = none := by
  induction d with
  | nil => rfl
  | cons e d ih =>
      have he : ¬(m == e.1) = true := by
        simp only [beq_iff_eq]
        intro hc
        exact h (by simp [hc])
      simp only [List.lookup, he, if_false]
      exact ih (fun hc => h (by simp [hc]))

theorem lookup_foldFile_none (comb data : ResultSet) (m : String)
    (h : List.lookup m data = none) :
    List.lookup m (foldFile comb data) = List.lookup m comb := by
  induction data generalizing comb with
  | nil => rfl
  | cons e data ih =>
      have hne : ¬(m == e.1) = true := by
        intro hc
        simp only [List.lookup, hc, if_pos] at h
        cases h
      have hd : List.lookup m data = none := by
        simpa only [List.lookup, hne, if_false] using h
      show List.lookup m (foldFile (upsertModel comb e.1 e.2) data) = _
      rw [ih _ hd, lookup_upsert]
      simp only [beq_iff_eq] at hne
      simp [hne]

theorem lookup_foldFile_some (comb data : ResultSet) (m : String)
    (records : List PredictionRecord)
    (hnd : (data.map Prod.fst).Nodup)
    (h : List.lookup m data = some records) :
    List.lookup m (foldFile comb data) =
      some (combineModel ((List.lookup m comb).getD []) records) := by
  induction data generalizing comb with
  | nil => simp [List.lookup] at h
  | cons e data ih =>
      rw [List.map_cons, List.nodup_cons] at hnd
      by_cases he : m = e.1
      · have hvals : records = e.2 := by
          simp only [List.lookup, he, beq_self_eq_true, if_pos] at h
          exact (Option.some.injEq _ _ ▸ h).symm
        subst hvals
        have hnone : List.lookup m data = none := by
          apply lookup_none_of_not_mem_keys
          rw [he]; exact hnd.1
        show List.lookup m (foldFile (upsertModel comb e.1 e.2) data) = _
        rw [lookup_foldFile_none _ _ _ hnone, lookup_upsert]
        simp [he]
      · have hne : ¬(m == e.1) = true := by simpa [beq_iff_eq] using he
        have hd : List.lookup m data = some records := by
          simpa only [List.lookup, hne, if_false] using h
        show List.lookup m (foldFile (upsertModel comb e.1 e.2) data) = _
        rw [ih _ hnd.2 hd, lookup_upsert]
        simp [he]

theorem allInput_nil_of_none (inputs : List ResultSet) (m : String)
    (h : ∀ d ∈ inputs, List.lookup m d = none) : allInput m inputs = [] := by
  induction inputs with
  | nil => rfl
  | cons d inputs ih =>
      show (List.lookup m d).getD [] ++ allInput m inputs = []
      rw [h d (by simp), ih (fun d' hd' => h d' (by simp [hd']))]
      rfl

theorem lookup_files_none (inputs : List ResultSet) (comb : ResultSet)
    (m : String) (h : ∀ d ∈ inputs, List.lookup m d = none) :
    List.lookup m (inputs.foldl foldFile comb) = List.lookup m comb := by
  induction inputs generalizing comb with
  | nil => rfl
  | cons d inputs ih =>
      show List.lookup m (inputs.foldl foldFile (foldFile comb d)) = _
      rw [ih _ (fun d' hd' => h d' (by simp [hd'])),
        lookup_foldFile_none _ _ _ (h d (by simp))]

theorem lookup_files_some (inputs : List ResultSet) (comb : ResultSet)
    (m : String)
    (hk : ∀ d ∈ inputs, (d.map Prod.fst).Nodup)
    (hex : ∃ d ∈ inputs, (List.lookup m d).isSome) :
    List.lookup m (inputs.foldl foldFile comb) =
      some (combineModel ((List.lookup m comb).getD []) (allInput m inputs)) := by
  induction inputs generalizing comb with
  | nil => simp at hex
  | cons d inputs ih =>
      have hstep : allInput m (d :: inputs)
          = (List.lookup m d).getD [] ++ allInput m inputs := rfl
      show List.lookup m (inputs.foldl foldFile (foldFile comb d)) = _
      by_cases hex' : ∃ d' ∈ inputs, (List.lookup m d').isSome
      · rw [ih _ (fun d' hd' => hk d' (by simp [hd'])) hex']
        cases hd : List.lookup m d with
        | none =>
            rw [lookup_foldFile_none _ _ _ hd, hstep, hd]
            rfl
        | some records =>
            rw [lookup_foldFile_some _ _ _ _ (hk d (by simp)) hd, hstep, hd]
            simp only [Option.getD_some, combineModel_append]
      · have hall : ∀ d' ∈ inputs, List.lookup m d' = none := by
          intro d' hd'
          by_contra hc
          exact hex' ⟨d', hd', Option.isSome_iff_ne_none.mpr hc⟩
        rcases hex with ⟨d₀, hd₀, hs⟩
        have hd0 : d₀ = d := by
          rcases List.mem_cons.mp hd₀ with h' | h'
          · exact h'
          · exfalso
            rw [hall d₀ h'] at hs
            simp at hs
        subst hd0
        rcases Option.isSome_iff_exists.mp hs with ⟨records, hrec⟩
        rw [lookup_files_none _ _ _ hall,
          lookup_foldFile_some _ _ _ _ (hk d₀ (by simp)) hrec, hstep, hrec,
          allInput_nil_of_none _ _ hall]
        simp

theorem foldFile_fresh (data : ResultSet) : ∀ comb : ResultSet,
    (∀ e ∈ data, e.1 ∉ comb.map Prod.fst) → (data.map Prod.fst).Nodup →
    foldFile comb data = comb ++ data.map (fun e => (e.1, combineModel [] e.2)) := by
  induction data with
  | nil => intro comb _ _; simp [foldFile]
  | cons e data ih =>
      intro comb hdisj hnd
      obtain ⟨k, v⟩ := e
      rw [List.map_cons, List.nodup_cons] at hnd
      show foldFile (upsertModel comb k v) data = _
      rw [upsert_absent comb k v (hdisj (k, v) (by simp))]
      rw [ih _ ?_ hnd.2]
      · simp
      · intro e' he'
        rw [List.map_append]
        intro hc
        rcases List.mem_append.mp hc with hc' | hc'
        · exact hdisj e' (by simp [he']) hc'
        · have hk : e'.1 = k := by simpa using hc'
          exact hnd.1 (hk ▸ List.mem_map.mpr ⟨e', he', rfl⟩)

theorem foldFile_self (data : ResultSet) : ∀ comb : ResultSet,
    (comb.map Prod.fst).Nodup → (∀ e ∈ data, e ∈ comb) →
    foldFile comb data = comb := by
  induction data with
  | nil => intro comb _ _; rfl
  | cons e data ih =>
      intro comb hnd hsub
      show foldFile (upsertModel comb e.1 e.2) data = comb
      rw [show upsertModel comb e.1 e.2 = comb from
        upsert_mem_self comb e.1 e.2 hnd (by simpa using hsub e (by simp))]
      exact ih comb hnd (fun e' he' => hsub e' (by simp [he']))

/-- C1: Merge dedup correctness.  For every sequence of input files and every
model_id, in the merged output of combine_results: (a) record keys are
pairwise distinct, so two input records with an identical
(policy_id, span, gold, pred) key — a missing field being the fixed
placeholder none — leave at most one surviving record; (b) every input
record's key survives, so two records differing in at least one of the four
fields both leave a representative; (c) each surviving record is exactly the
first input record (in input order) with its key, all fields carried
verbatim, so non-key fields are never compared or merged. -/
theorem merge_dedup_correct (inputs : List ResultSet) (m : String)
    (hkeys : ∀ d ∈ inputs, (d.map Prod.fst).Nodup) :
    ((((List.lookup m (combine_results inputs)).getD []).map recKey).Nodup) ∧
    (∀ r ∈ allInput m inputs,
      recKey r ∈ ((List.lookup m (combine_results inputs)).getD []).map recKey) ∧
    (∀ r' ∈ (List.lookup m (combine_results inputs)).getD [],
      (allInput m inputs).find? (fun r => recKey r == recKey r') = some r') := by
  by_cases hex : ∃ d ∈ inputs, (List.lookup m d).isSome
  · have hl : List.lookup m (combine_results inputs)
        = some (combineModel [] (allInput m inputs)) := by
      have h := lookup_files_some inputs [] m hkeys hex
      simpa [combine_results] using h
    rw [hl]
    simp only [Option.getD_some]
    exact ⟨nodup_keys_combineModel [] _ (by simp),
      combineModel_key_surj _, combineModel_find_first _⟩
  · push_neg at hex
    have hall : ∀ d ∈ inputs, List.lookup m d = none := by
      intro d hd
      exact Option.not_isSome_iff_eq_none.mp (hex d hd)
    have hl : List.lookup m (combine_results inputs) = none := by
      have h := lookup_files_none inputs [] m hall
      simpa [combine_results] using h
    rw [hl, allInput_nil_of_none _ _ hall]
    refine ⟨by simp, by simp, by simp⟩

/-- Witness for merge_dedup_correct: the spec's end-to-end example 1,
two files for model m1 where the second file repeats the first file's
record. -/
theorem merge_dedup_correct_witness :
    (∀ d ∈ [exFileA, exFileB], (d.map Prod.fst).Nodup) ∧
    (((((List.lookup "m1" (combine_results [exFileA, exFileB])).getD []).map recKey).Nodup) ∧
     (∀ r ∈ allInput "m1" [exFileA, exFileB],
       recKey r ∈ ((List.lookup "m1" (combine_results [exFileA, exFileB])).getD []).map recKey) ∧
     (∀ r' ∈ (List.lookup "m1" (combine_results [exFileA, exFileB])).getD [],
       (allInput "m1" [exFileA, exFileB]).find? (fun r => recKey r == recKey r') = some r')) :=
  ⟨by decide, merge_dedup_correct [exFileA, exFileB] "m1" (by decide)⟩

/-- C2: Merge idempotence.  Merging a ResultSet with itself yields the very
same ResultSet (same models in the same order, same records in the same
order) whenever its per-model records are pairwise distinct under the
4-tuple key. -/
theorem merge_idempotent (R : ResultSet)
    (h1 : (R.map Prod.fst).Nodup)
    (h2 : ∀ e ∈ R, (e.2.map recKey).Nodup) :
    combine_results [R, R] = R := by
  have hA : foldFile [] R = R := by
    rw [foldFile_fresh R [] (by simp) h1]
    have hmap : R.map (fun e => (e.1, combineModel [] e.2)) = R := by
      conv_rhs => rw [show R = R.map id from (List.map_id R).symm]
      apply List.map_congr_left
      intro e he
      rw [combineModel_noop e.2 (h2 e he)]
      rfl
    simpa using hmap
  have hB : foldFile R R = R :=
    foldFile_self R R h1 (fun e he => he)
  show foldFile (foldFile [] R) R = R
  rw [hA, hB]

/-- Witness for merge_idempotent: a one-model ResultSet with two records
whose keys differ. -/
theorem merge_idempotent_witness :
    ((exFileB.map Prod.fst).Nodup) ∧
    (∀ e ∈ exFileB, (e.2.map recKey).Nodup) ∧
    combine_results [exFileB, exFileB] = exFileB :=
  ⟨by decide, by decide, merge_idempotent exFileB (by decide) (by decide)⟩

theorem getGroup_cons (q' : Option String) (l : List ℕ)
    (gs : List (Option String × List ℕ)) (p : Option String) :
    getGroup ((q', l) :: gs) p = if q' = p then l else getGroup gs p := rfl

theorem offDiag_cons (z : ℕ) (zs : List ℕ) :
    offDiag (z :: zs) = zs.map (fun y => (z, y)) ++ offDiag zs := rfl

theorem mem_offDiag_concat (l : List ℕ) (n x y : ℕ) :
    (x, y) ∈ offDiag (l ++ [n]) ↔ (x, y) ∈ offDiag l ∨ (x ∈ l ∧ y = n) := by
  induction l with
  | nil => simp [offDiag]
  | cons z zs ih =>
      rw [List.cons_append, offDiag_cons, offDiag_cons]
      simp only [List.mem_append, List.mem_map, List.mem_cons,
        List.mem_singleton, ih, Prod.mk.injEq]
      constructor
      · rintro (⟨a, ha, hz, hy⟩ | (h | ⟨hx, hy⟩))
        · rcases ha with ha | ha | h0
          · exact Or.inl (Or.inl ⟨a, ha, hz, hy⟩)
          · subst ha
            exact Or.inr ⟨Or.inl hz.symm, hy.symm⟩
          · exact absurd h0 (List.not_mem_nil a)
        · exact Or.inl (Or.inr h)
        · exact Or.inr ⟨Or.inr hx, hy⟩
      · rintro ((⟨a, ha, hz, hy⟩ | h) | ⟨(hx | hx), hy⟩)
        · exact Or.inl ⟨a, Or.inl ha, hz, hy⟩
        · exact Or.inr (Or.inl h)
        · exact Or.inl ⟨n, Or.inr (Or.inl rfl), hx.symm, hy.symm⟩
        · exact Or.inr (Or.inr ⟨hx, hy⟩)

theorem getGroup_setdefaultAppend
    (gs : List (Option String × List ℕ)) (p q : Option String) (n : ℕ) :
    getGroup (setdefaultAppend gs p n) q =
      if q = p then getGroup gs p ++ [n] else getGroup gs q := by
  induction gs with
  | nil =>
      show getGroup [(p, [n])] q = _
      rw [getGroup_cons]
      by_cases h : q = p
      · rw [if_pos h.symm, if_pos h]
        rfl
      · rw [if_neg (fun hc : p = q => h hc.symm), if_neg h]
  | cons e gs ih =>
      obtain ⟨q', l⟩ := e
      by_cases h1 : q' = p
      · have hs : setdefaultAppend ((q', l) :: gs) p n = (q', l ++ [n]) :: gs := by
          simp [setdefaultAppend, h1]
        rw [hs, getGroup_cons]
        by_cases h2 : q' = q
        · rw [if_pos h2, if_pos (h2.symm.trans h1), getGroup_cons, if_pos h1]
        · rw [if_neg h2,
            if_neg (show ¬q = p from fun hc => h2 (h1.symm ▸ hc.symm)),
            getGroup_cons, if_neg h2]
      · have hs : setdefaultAppend ((q', l) :: gs) p n
            = (q', l) :: setdefaultAppend gs p n := by
          simp [setdefaultAppend, h1]
        rw [hs, getGroup_cons]
        by_cases h2 : q' = q
        · rw [if_pos h2,
            if_neg (show ¬q = p from fun hc => h1 (h2.symm ▸ hc)),
            getGroup_cons, if_pos h2]
        · rw [if_neg h2, ih]
          by_cases h3 : q = p
          · rw [if_pos h3, if_pos h3, getGroup_cons,
              if_neg (show ¬q' = p from h1)]
          · rw [if_neg h3, if_neg h3, getGroup_cons, if_neg h2]

theorem policy_groups_concat (rs : List PredictionRecord) (r : PredictionRecord) :
    policy_groups (rs ++ [r])
      = setdefaultAppend (policy_groups rs) r.policy_id rs.length := by
  have he : List.enum (rs ++ [r]) = List.enum rs ++ [(rs.length, r)] := by
    show List.enumFrom 0 (rs ++ [r]) = List.enumFrom 0 rs ++ [(rs.length, r)]
    rw [List.enumFrom_append]
    simp [List.enumFrom]
  show (List.enum (rs ++ [r])).foldl _ [] = _
  rw [he, List.foldl_append]
  rfl

theorem mem_getGroup_policy_groups (rs : List PredictionRecord)
    (p : Option String) (i : ℕ) :
    i ∈ getGroup (policy_groups rs) p ↔
      ∃ ri, rs[i]? = some ri ∧ ri.policy_id = p := by
  induction rs using List.reverseRecOn with
  | nil => simp [policy_groups, getGroup]
  | append_singleton rs r ih =>
      rw [policy_groups_concat, getGroup_setdefaultAppend]
      by_cases hp : p = r.policy_id
      · subst hp
        rw [if_pos rfl]
        constructor
        · intro hmem
          rcases List.mem_append.mp hmem with hm | hm
          · rcases ih.mp hm with ⟨ri, hri, hpi⟩
            have hlt : i < rs.length := (List.getElem?_eq_some.mp hri).1
            exact ⟨ri, by rw [List.getElem?_append_left hlt]; exact hri, hpi⟩
          · have hin : i = rs.length := by simpa using hm
            subst hin
            exact ⟨r, List.getElem?_concat_length rs r, rfl⟩
        · rintro ⟨ri, hri, hpi⟩
          by_cases hlt : i < rs.length
          · rw [List.getElem?_append_left hlt] at hri
            exact List.mem_append.mpr (Or.inl (ih.mpr ⟨ri, hri, hpi⟩))
          · have hge : rs.length ≤ i := Nat.le_of_not_lt hlt
            rw [List.getElem?_append_right hge] at hri
            have hin : i = rs.length := by
              by_contra hne
              have hnil : ([r] : List PredictionRecord)[i - rs.length]? = none := by
                apply List.getElem?_eq_none
                simp only [List.length_singleton]
                omega
              rw [hnil] at hri
              cases hri
            subst hin
            simp
      · rw [if_neg hp, ih]
        constructor
        · rintro ⟨ri, hri, hpi⟩
          have hlt : i < rs.length := (List.getElem?_eq_some.mp hri).1
          exact ⟨ri, by rw [List.getElem?_append_left hlt]; exact hri, hpi⟩
        · rintro ⟨ri, hri, hpi⟩
          by_cases hlt : i < rs.length
          · rw [List.getElem?_append_left hlt] at hri
            exact ⟨ri, hri, hpi⟩
          · have hge : rs.length ≤ i := Nat.le_of_not_lt hlt
            rw [List.getElem?_append_right hge] at hri
            rcases Nat.lt_or_ge (i - rs.length) 1 with hsm | hsm
            · have hin : i - rs.length = 0 := by omega
              rw [hin] at hri
              have hre : r = ri := by simpa using hri
              subst hre
              exact absurd hpi.symm hp
            · have hnil : ([r] : List PredictionRecord)[i - rs.length]? = none := by
                apply List.getElem?_eq_none
                simpa using hsm
              rw [hnil] at hri
              cases hri

theorem mem_flatMap_setdefaultAppend
    (gs : List (Option String × List ℕ)) (p : Option String) (n x y : ℕ) :
    (x, y) ∈ (setdefaultAppend gs p n).flatMap (fun g => offDiag g.2) ↔
      (x, y) ∈ gs.flatMap (fun g => offDiag g.2) ∨
        (x ∈ getGroup gs p ∧ y = n) := by
  induction gs with
  | nil => simp [setdefaultAppend, offDiag, getGroup]
  | cons e gs ih =>
      obtain ⟨q, l⟩ := e
      by_cases h1 : q = p
      · have hs : setdefaultAppend ((q, l) :: gs) p n = (q, l ++ [n]) :: gs := by
          simp [setdefaultAppend, h1]
        rw [hs]
        simp only [List.flatMap_cons, List.mem_append, mem_offDiag_concat,
          getGroup, if_pos h1]
        tauto
      · have hs : setdefaultAppend ((q, l) :: gs) p n
            = (q, l) :: setdefaultAppend gs p n := by
          simp [setdefaultAppend, h1]
        rw [hs]
        simp only [List.flatMap_cons, List.mem_append, ih, getGroup, if_neg h1]
        tauto

theorem mem_groupPairs (rs : List PredictionRecord) (a b : ℕ) :
    (a, b) ∈ groupPairs rs ↔
      ∃ ra rb, rs[a]? = some ra ∧ rs[b]? = some rb ∧ a < b ∧
        ra.policy_id = rb.policy_id := by
  induction rs using List.reverseRecOn with
  | nil => simp [groupPairs, policy_groups, offDiag]
  | append_singleton rs r ih =>
      show (a, b) ∈ (policy_groups (rs ++ [r])).flatMap (fun g => offDiag g.2) ↔ _
      rw [policy_groups_concat, mem_flatMap_setdefaultAppend]
      have hihs : (a, b) ∈ (policy_groups rs).flatMap (fun g => offDiag g.2) ↔
          ∃ ra rb, rs[a]? = some ra ∧ rs[b]? = some rb ∧ a < b ∧
            ra.policy_id = rb.policy_id := ih
      rw [hihs, mem_getGroup_policy_groups]
      constructor
      · rintro (⟨ra, rb, ha, hb, hab, hpp⟩ | ⟨⟨ra, ha, hpa⟩, hbn⟩)
        · have hla : a < rs.length := (List.getElem?_eq_some.mp ha).1
          have hlb : b < rs.length := (List.getElem?_eq_some.mp hb).1
          exact ⟨ra, rb, by rw [List.getElem?_append_left hla]; exact ha,
            by rw [List.getElem?_append_left hlb]; exact hb, hab, hpp⟩
        · have hla : a < rs.length := (List.getElem?_eq_some.mp ha).1
          subst hbn
          exact ⟨ra, r, by rw [List.getElem?_append_left hla]; exact ha,
            List.getElem?_concat_length rs r, hla, hpa⟩
      · rintro ⟨ra, rb, ha, hb, hab, hpp⟩
        have hlb : b < rs.length + 1 := by
          have := (List.getElem?_eq_some.mp hb).1
          simpa using this
        by_cases hblt : b < rs.length
        · have halt : a < rs.length := Nat.lt_trans hab hblt
          rw [List.getElem?_append_left halt] at ha
          rw [List.getElem?_append_left hblt] at hb
          exact Or.inl ⟨ra, rb, ha, hb, hab, hpp⟩
        · have hbn : b = rs.length := by omega
          subst hbn
          have halt : a < rs.length := hab
          rw [List.getElem?_append_left halt] at ha
          have hr : rb = r := by
            have := List.getElem?_concat_length rs r
            rw [this] at hb
            exact (Option.some.injEq _ _ ▸ hb).symm
          subst hr
          exact Or.inr ⟨⟨ra, ha, hpp⟩, rfl⟩

theorem mem_foldl_insertPair (c : ℕ × ℕ → Bool) (pairs : List (ℕ × ℕ)) :
    ∀ (init : Finset ℕ) (k : ℕ),
      (k ∈ pairs.foldl
        (fun s ab => if c ab then insert ab.1 (insert ab.2 s) else s) init) ↔
      k ∈ init ∨ ∃ ab ∈ pairs, c ab = true ∧ (k = ab.1 ∨ k = ab.2) := by
  induction pairs with
  | nil => intro init k; simp
  | cons ab pairs ih =>
      intro init k
      show (k ∈ pairs.foldl _
        (if c ab then insert ab.1 (insert ab.2 init) else init)) ↔ _
      by_cases hcb : c ab = true
      · rw [if_pos hcb, ih]
        constructor
        · rintro (hins | ⟨ab', hab', hc', hk'⟩)
          · rcases Finset.mem_insert.mp hins with h | h
            · exact Or.inr ⟨ab, by simp, hcb, Or.inl h⟩
            · rcases Finset.mem_insert.mp h with h' | h'
              · exact Or.inr ⟨ab, by simp, hcb, Or.inr h'⟩
              · exact Or.inl h'
          · exact Or.inr ⟨ab', by simp [hab'], hc', hk'⟩
        · rintro (hinit | ⟨ab', hab', hc', hk'⟩)
          · exact Or.inl (Finset.mem_insert.mpr (Or.inr
              (Finset.mem_insert.mpr (Or.inr hinit))))
          · rcases List.mem_cons.mp hab' with he | he
            · subst he
              rcases hk' with h | h
              · exact Or.inl (Finset.mem_insert.mpr (Or.inl h))
              · exact Or.inl (Finset.mem_insert.mpr (Or.inr
                  (Finset.mem_insert.mpr (Or.inl h))))
            · exact Or.inr ⟨ab', he, hc', hk'⟩
      · rw [if_neg hcb, ih]
        constructor
        · rintro (h | ⟨ab', hab', hc', hk'⟩)
          · exact Or.inl h
          · exact Or.inr ⟨ab', by simp [hab'], hc', hk'⟩
        · rintro (h | ⟨ab', hab', hc', hk'⟩)
          · exact Or.inl h
          · rcases List.mem_cons.mp hab' with he | he
            · subst he
              exact absurd hc' hcb
            · exact Or.inr ⟨ab', he, hc', hk'⟩

theorem getD_of_getElem? (rs : List PredictionRecord) (i : ℕ)
    (ri : PredictionRecord) (h : rs[i]? = some ri) :
    rs.getD i default = ri := by
  rw [List.getD_eq_getElem?_getD, h]
  rfl

theorem pairStep_ok (rs : List PredictionRecord) (t : ℚ)
    (hc : spanGoldComplete rs) (ab : ℕ × ℕ)
    (ha : ab.1 < rs.length) (hb : ab.2 < rs.length) (s : Finset ℕ) :
    pairStep rs t s ab =
      Except.ok (if dropCond rs t ab then insert ab.1 (insert ab.2 s) else s) := by
  have hmi : rs.getD ab.1 default ∈ rs := by
    rw [List.getD_eq_getElem?_getD, List.getElem?_eq_getElem ha]
    exact List.getElem_mem ha
  have hmj : rs.getD ab.2 default ∈ rs := by
    rw [List.getD_eq_getElem?_getD, List.getElem?_eq_getElem hb]
    exact List.getElem_mem hb
  obtain ⟨si, hsi⟩ := Option.isSome_iff_exists.mp (hc _ hmi).1
  obtain ⟨sj, hsj⟩ := Option.isSome_iff_exists.mp (hc _ hmj).1
  obtain ⟨gi, hgi⟩ := Option.isSome_iff_exists.mp (hc _ hmi).2
  obtain ⟨gj, hgj⟩ := Option.isSome_iff_exists.mp (hc _ hmj).2
  simp only [pairStep, hsi, hsj, hgi, hgj, require, Except.bind, bind,
    dropCond, Option.getD_some]
  by_cases hg : gi = gj
  · simp [hg, pure, Except.pure]
  · by_cases hsim : similarity si sj ≥ t
    · simp [hg, hsim, pure, Except.pure]
    · simp [hg, hsim, pure, Except.pure]

theorem foldlM_pairStep_ok (rs : List PredictionRecord) (t : ℚ)
    (hc : spanGoldComplete rs) :
    ∀ (pairs : List (ℕ × ℕ)),
      (∀ ab ∈ pairs, ab.1 < rs.length ∧ ab.2 < rs.length) →
    ∀ init, pairs.foldlM (pairStep rs t) init =
      Except.ok (pairs.foldl
        (fun s ab => if dropCond rs t ab then insert ab.1 (insert ab.2 s) else s)
        init) := by
  intro pairs
  induction pairs with
  | nil => intro _ init; rfl
  | cons ab pairs ih =>
      intro hbound init
      rw [List.foldlM_cons,
        pairStep_ok rs t hc ab (hbound ab (by simp)).1 (hbound ab (by simp)).2]
      show (pairs.foldlM (pairStep rs t) _) = _
      rw [ih (fun ab' hab' => hbound ab' (by simp [hab']))]
      rfl

theorem groupPairs_bounds (rs : List PredictionRecord) :
    ∀ ab ∈ groupPairs rs, ab.1 < rs.length ∧ ab.2 < rs.length := by
  intro ab hab
  obtain ⟨a, b⟩ := ab
  rcases (mem_groupPairs rs a b).mp hab with ⟨ra, rb, ha, hb, _, _⟩
  exact ⟨(List.getElem?_eq_some.mp ha).1, (List.getElem?_eq_some.mp hb).1⟩

theorem to_drop_ok (rs : List PredictionRecord) (t : ℚ)
    (hc : spanGoldComplete rs) :
    to_drop rs t = Except.ok (dropFinset rs t) :=
  foldlM_pairStep_ok rs t hc (groupPairs rs) (groupPairs_bounds rs) ∅

theorem filter_results_ok (rs : List PredictionRecord) (t : ℚ)
    (hc : spanGoldComplete rs) :
    filter_results rs t = Except.ok (survivors rs t) := by
  show (to_drop rs t).bind _ = _
  rw [to_drop_ok rs t hc]
  rfl

theorem mem_dropFinset (rs : List PredictionRecord) (t : ℚ) (k : ℕ) :
    k ∈ dropFinset rs t ↔
      ∃ a b ra rb, rs[a]? = some ra ∧ rs[b]? = some rb ∧ a < b ∧
        ra.policy_id = rb.policy_id ∧
        ra.gold.getD "" ≠ rb.gold.getD "" ∧
        similarity (ra.span.getD "") (rb.span.getD "") ≥ t ∧
        (k = a ∨ k = b) := by
  unfold dropFinset
  rw [mem_foldl_insertPair]
  simp only [Finset.not_mem_empty, false_or]
  constructor
  · rintro ⟨ab, hab, hcond, hk⟩
    obtain ⟨a, b⟩ := ab
    rcases (mem_groupPairs rs a b).mp hab with ⟨ra, rb, ha, hb, hlt, hpp⟩
    have hga := getD_of_getElem? rs a ra ha
    have hgb := getD_of_getElem? rs b rb hb
    simp only [dropCond, hga, hgb, Bool.and_eq_true, decide_eq_true_eq] at hcond
    exact ⟨a, b, ra, rb, ha, hb, hlt, hpp, hcond.1, hcond.2, hk⟩
  · rintro ⟨a, b, ra, rb, ha, hb, hlt, hpp, hgold, hsim, hk⟩
    refine ⟨(a, b), (mem_groupPairs rs a b).mpr ⟨ra, rb, ha, hb, hlt, hpp⟩, ?_, hk⟩
    have hga := getD_of_getElem? rs a ra ha
    have hgb := getD_of_getElem? rs b rb hb
    simp only [dropCond, hga, hgb, Bool.and_eq_true, decide_eq_true_eq]
    exact ⟨hgold, hsim⟩

/-- C6: Similarity filter monotonicity.  For thresholds t₁ ≤ t₂ on a record
sequence whose spans and gold labels are present, the set of indices marked
for removal at t₂ is contained in the set marked at t₁, and the survivor
list at t₁ is no longer than the survivor list at t₂: lowering the
threshold never increases the number of surviving records. -/
theorem similarity_filter_monotone (results : List PredictionRecord)
    (t₁ t₂ : ℚ) (hc : spanGoldComplete results) (h12 : t₁ ≤ t₂) :
    to_drop results t₁ = Except.ok (dropFinset results t₁) ∧
    to_drop results t₂ = Except.ok (dropFinset results t₂) ∧
    dropFinset results t₂ ⊆ dropFinset results t₁ ∧
    filter_results results t₁ = Except.ok (survivors results t₁) ∧
    filter_results results t₂ = Except.ok (survivors results t₂) ∧
    (survivors results t₁).length ≤ (survivors results t₂).length := by
  have hsub : dropFinset results t₂ ⊆ dropFinset results t₁ := by
    intro k hk
    rw [mem_dropFinset] at hk ⊢
    obtain ⟨a, b, ra, rb, ha, hb, hlt, hpp, hg, hs, hk'⟩ := hk
    exact ⟨a, b, ra, rb, ha, hb, hlt, hpp, hg, le_trans h12 hs, hk'⟩
  refine ⟨to_drop_ok _ _ hc, to_drop_ok _ _ hc, hsub,
    filter_results_ok _ _ hc, filter_results_ok _ _ hc, ?_⟩
  unfold survivors
  rw [List.length_map, List.length_map,
    ← List.countP_eq_length_filter, ← List.countP_eq_length_filter]
  apply List.countP_mono_left
  intro x _ hx
  simp only [decide_eq_true_eq] at hx ⊢
  exact fun hmem => hx (hsub hmem)

/-- Witness for similarity_filter_monotone: the two example records share a
policy_id, have complete span/gold fields, and are compared at thresholds
1/2 ≤ 3/4. -/
theorem similarity_filter_monotone_witness :
    spanGoldComplete [exRecord1, exRecord2] ∧ mkRat 1 2 ≤ mkRat 3 4 ∧
    (to_drop [exRecord1, exRecord2] (mkRat 1 2)
        = Except.ok (dropFinset [exRecord1, exRecord2] (mkRat 1 2)) ∧
     to_drop [exRecord1, exRecord2] (mkRat 3 4)
        = Except.ok (dropFinset [exRecord1, exRecord2] (mkRat 3 4)) ∧
     dropFinset [exRecord1, exRecord2] (mkRat 3 4)
        ⊆ dropFinset [exRecord1, exRecord2] (mkRat 1 2) ∧
     filter_results [exRecord1, exRecord2] (mkRat 1 2)
        = Except.ok (survivors [exRecord1, exRecord2] (mkRat 1 2)) ∧
     filter_results [exRecord1, exRecord2] (mkRat 3 4)
        = Except.ok (survivors [exRecord1, exRecord2] (mkRat 3 4)) ∧
     (survivors [exRecord1, exRecord2] (mkRat 1 2)).length
        ≤ (survivors [exRecord1, exRecord2] (mkRat 3 4)).length) :=
  ⟨by decide, by decide,
    similarity_filter_monotone [exRecord1, exRecord2] (mkRat 1 2) (mkRat 3 4)
      (by decide) (by decide)⟩

theorem pairStep_error (rs : List PredictionRecord) (t : ℚ) (ab : ℕ × ℕ)
    (s : Finset ℕ)
    (h : (rs.getD ab.1 default).span = none ∨
      (rs.getD ab.2 default).span = none ∨
      (rs.getD ab.1 default).gold = none ∨
      (rs.getD ab.2 default).gold = none) :
    ∃ msg, pairStep rs t s ab = Except.error msg := by
  simp only [List.getD_eq_getElem?_getD] at h
  cases hsi : (rs[ab.1]?.getD default).span with
  | none =>
      exact ⟨"KeyError: span", by
        simp [pairStep, require, Except.bind, bind,
          List.getD_eq_getElem?_getD, hsi]⟩
  | some si =>
      cases hsj : (rs[ab.2]?.getD default).span with
      | none =>
          exact ⟨"KeyError: span", by
            simp [pairStep, require, Except.bind, bind,
              List.getD_eq_getElem?_getD, hsi, hsj]⟩
      | some sj =>
          cases hgi : (rs[ab.1]?.getD default).gold with
          | none =>
              exact ⟨"KeyError: gold", by
                simp [pairStep, require, Except.bind, bind,
                  List.getD_eq_getElem?_getD, hsi, hsj, hgi]⟩
          | some gi =>
              cases hgj : (rs[ab.2]?.getD default).gold with
              | none =>
                  exact ⟨"KeyError: gold", by
                    simp [pairStep, require, Except.bind, bind,
                      List.getD_eq_getElem?_getD, hsi, hsj, hgi, hgj]⟩
              | some gj =>
                  rcases h with hm | hm | hm | hm
                  · rw [hsi] at hm
                    cases hm
                  · rw [hsj] at hm
                    cases hm
                  · rw [hgi] at hm
                    cases hm
                  · rw [hgj] at hm
                    cases hm

theorem foldlM_pairStep_error (rs : List PredictionRecord) (t : ℚ)
    (pairs : List (ℕ × ℕ)) (ab : ℕ × ℕ) (hab : ab ∈ pairs)
    (herr : ∀ s, ∃ msg, pairStep rs t s ab = Except.error msg) :
    ∀ init, ∃ msg, pairs.foldlM (pairStep rs t) init = Except.error msg := by
  induction pairs with
  | nil => simp at hab
  | cons hd pairs ih =>
      intro init
      rcases List.mem_cons.mp hab with he | he
      · subst he
        obtain ⟨msg, hmsg⟩ := herr init
        refine ⟨msg, ?_⟩
        rw [List.foldlM_cons, hmsg]
        rfl
      · cases hstep : pairStep rs t init hd with
        | error e =>
            refine ⟨e, ?_⟩
            rw [List.foldlM_cons, hstep]
            rfl
        | ok s' =>
            obtain ⟨msg, hmsg⟩ := ih he s'
            refine ⟨msg, ?_⟩
            rw [List.foldlM_cons, hstep]
            exact hmsg

theorem pairwise_enumFrom_fst_lt (xs : List PredictionRecord) :
    ∀ n : ℕ, (List.enumFrom n xs).Pairwise (fun u v => u.1 < v.1) := by
  induction xs with
  | nil => intro n; simp
  | cons x xs ih =>
      intro n
      rw [List.enumFrom_cons]
      refine List.Pairwise.cons ?_ (ih (n + 1))
      intro v hv
      obtain ⟨i, y⟩ := v
      exact Nat.lt_of_succ_le (List.mem_enumFrom hv).1

theorem survivors_pair_structure (rs : List PredictionRecord) (t : ℚ)
    (i j : ℕ) (ri rj : PredictionRecord)
    (hi : (survivors rs t)[i]? = some ri) (hj : (survivors rs t)[j]? = some rj)
    (hij : i < j) :
    ∃ a b, a < b ∧ rs[a]? = some ri ∧ rs[b]? = some rj ∧
      a ∉ dropFinset rs t ∧ b ∉ dropFinset rs t := by
  have hmap : survivors rs t
      = (rs.enum.filter (fun p => decide (p.1 ∉ dropFinset rs t))).map Prod.snd :=
    rfl
  rw [hmap, List.getElem?_map] at hi hj
  cases hfi : (rs.enum.filter (fun p => decide (p.1 ∉ dropFinset rs t)))[i]? with
  | none =>
      rw [hfi] at hi
      cases hi
  | some u =>
      cases hfj : (rs.enum.filter (fun p => decide (p.1 ∉ dropFinset rs t)))[j]? with
      | none =>
          rw [hfj] at hj
          cases hj
      | some v =>
          rw [hfi] at hi
          rw [hfj] at hj
          have hu2 : u.2 = ri := by simpa using hi
          have hv2 : v.2 = rj := by simpa using hj
          have hpw : (rs.enum.filter
              (fun p => decide (p.1 ∉ dropFinset rs t))).Pairwise
                (fun u v => u.1 < v.1) :=
            List.Pairwise.filter _ (pairwise_enumFrom_fst_lt rs 0)
          obtain ⟨hil, hie⟩ := List.getElem?_eq_some.mp hfi
          obtain ⟨hjl, hje⟩ := List.getElem?_eq_some.mp hfj
          have hlt : u.1 < v.1 := by
            rw [List.pairwise_iff_getElem] at hpw
            have h := hpw i j hil hjl hij
            rwa [hie, hje] at h
          have humem := List.mem_filter.mp (List.getElem?_mem hfi)
          have hvmem := List.mem_filter.mp (List.getElem?_mem hfj)
          obtain ⟨a, x⟩ := u
          obtain ⟨b, y⟩ := v
          obtain ⟨_, hax, hxe⟩ := List.mem_enumFrom humem.1
          obtain ⟨_, hbx, hye⟩ := List.mem_enumFrom hvmem.1
          refine ⟨a, b, hlt, ?_, ?_, ?_, ?_⟩
          · rw [List.getElem?_eq_getElem (by simpa using hax)]
            rw [← hu2]
            simpa using hxe.symm
          · rw [List.getElem?_eq_getElem (by simpa using hbx)]
            rw [← hv2]
            simpa using hye.symm
          · simpa using humem.2
          · simpa using hvmem.2

theorem dropFinset_survivors_empty (rs : List PredictionRecord) (t : ℚ) :
    dropFinset (survivors rs t) t = ∅ := by
  rw [Finset.eq_empty_iff_forall_not_mem]
  intro k hk
  rw [mem_dropFinset] at hk
  obtain ⟨i, j, ri, rj, hi, hj, hij, hpp, hgold, hsim, hk'⟩ := hk
  obtain ⟨a, b, hab, ha, hb, hnda, _⟩ :=
    survivors_pair_structure rs t i j ri rj hi hj hij
  apply hnda
  rw [mem_dropFinset]
  exact ⟨a, b, ri, rj, ha, hb, hab, hpp, hgold, hsim, Or.inl rfl⟩

theorem survivors_survivors (rs : List PredictionRecord) (t : ℚ) :
    survivors (survivors rs t) t = survivors rs t := by
  show ((survivors rs t).enum.filter
    (fun p => decide (p.1 ∉ dropFinset (survivors rs t) t))).map Prod.snd = _
  rw [dropFinset_survivors_empty]
  rw [List.filter_eq_self.mpr (by intro a _; simp)]
  exact List.enum_map_snd _

theorem survivors_subset (rs : List PredictionRecord) (t : ℚ) :
    ∀ r ∈ survivors rs t, r ∈ rs := by
  intro r hr
  rcases List.mem_map.mp hr with ⟨u, hu, hsnd⟩
  subst hsnd
  exact (List.enum_map_snd rs) ▸
    List.mem_map_of_mem Prod.snd (List.mem_filter.mp hu).1

/-- C9: Similarity filter idempotence.  On a record sequence whose spans and
gold labels are present, a second application of filter_results at the same
threshold returns its input unchanged: every pair among the survivors
already failed the drop condition in the first pass. -/
theorem similarity_filter_idempotent (results : List PredictionRecord) (t : ℚ)
    (hc : spanGoldComplete results) :
    filter_results results t = Except.ok (survivors results t) ∧
    filter_results (survivors results t) t = Except.ok (survivors results t) := by
  have hc' : spanGoldComplete (survivors results t) :=
    fun r hr => hc r (survivors_subset results t r hr)
  refine ⟨filter_results_ok _ _ hc, ?_⟩
  rw [filter_results_ok _ _ hc', survivors_survivors]

/-- Witness for similarity_filter_idempotent at two concrete records and
threshold 1/2. -/
theorem similarity_filter_idempotent_witness :
    spanGoldComplete [exRecord1, exRecord2] ∧
    (filter_results [exRecord1, exRecord2] (mkRat 1 2)
        = Except.ok (survivors [exRecord1, exRecord2] (mkRat 1 2)) ∧
     filter_results (survivors [exRecord1, exRecord2] (mkRat 1 2)) (mkRat 1 2)
        = Except.ok (survivors [exRecord1, exRecord2] (mkRat 1 2))) :=
  ⟨by decide,
    similarity_filter_idempotent [exRecord1, exRecord2] (mkRat 1 2) (by decide)⟩

theorem enum_reverse (l : List PredictionRecord) :
    l.reverse.enum
      = (l.enum.map (fun p => (l.length - 1 - p.1, p.2))).reverse := by
  apply List.ext_getElem?
  intro i
  by_cases hi : i < l.length
  · rw [List.getElem?_enum, List.getElem?_reverse (by simpa using hi),
      List.getElem?_reverse (by simpa [List.enum_length] using hi),
      List.getElem?_map]
    rw [show (l.enum.map (fun p => (l.length - 1 - p.1, p.2))).length - 1 - i
        = l.length - 1 - i by simp [List.enum_length]]
    rw [List.getElem?_enum]
    cases hv : l[l.length - 1 - i]? with
    | none => rfl
    | some v =>
        show some (i, v) = some (l.length - 1 - (l.length - 1 - i), v)
        have harith : l.length - 1 - (l.length - 1 - i) = i := by omega
        rw [harith]
  · have h1 : l.reverse.enum[i]? = none := by
      apply List.getElem?_eq_none
      simpa [List.enum_length] using Nat.le_of_not_lt hi
    have h2 : ((l.enum.map (fun p => (l.length - 1 - p.1, p.2))).reverse)[i]?
        = none := by
      apply List.getElem?_eq_none
      simpa [List.enum_length] using Nat.le_of_not_lt hi
    rw [h1, h2]

theorem dropFinset_reverse_mem (rs : List PredictionRecord) (t : ℚ)
    (hsym : ∀ r ∈ rs, ∀ s ∈ rs,
      (similarity (r.span.getD "") (s.span.getD "") ≥ t ↔
       similarity (s.span.getD "") (r.span.getD "") ≥ t))
    (k : ℕ) (hk : k < rs.length) :
    k ∈ dropFinset rs.reverse t ↔
      (rs.length - 1 - k) ∈ dropFinset rs t := by
  constructor
  · intro h
    rw [mem_dropFinset] at h ⊢
    obtain ⟨a, b, ra, rb, ha, hb, hab, hpp, hgold, hsim, hk'⟩ := h
    have hbl : b < rs.length := by
      simpa using (List.getElem?_eq_some.mp hb).1
    have hal : a < rs.length := lt_trans hab hbl
    rw [List.getElem?_reverse (by simpa using hal)] at ha
    rw [List.getElem?_reverse (by simpa using hbl)] at hb
    refine ⟨rs.length - 1 - b, rs.length - 1 - a, rb, ra, hb, ha, by omega,
      hpp.symm, fun hc => hgold hc.symm,
      (hsym ra (List.getElem?_mem ha) rb (List.getElem?_mem hb)).mp hsim, ?_⟩
    rcases hk' with h | h
    · right
      omega
    · left
      omega
  · intro h
    rw [mem_dropFinset] at h ⊢
    obtain ⟨a, b, ra, rb, ha, hb, hab, hpp, hgold, hsim, hk'⟩ := h
    have hbl : b < rs.length := (List.getElem?_eq_some.mp hb).1
    have hal : a < rs.length := lt_trans hab hbl
    refine ⟨rs.length - 1 - b, rs.length - 1 - a, rb, ra, ?_, ?_, by omega,
      hpp.symm, fun hc => hgold hc.symm,
      (hsym ra (List.getElem?_mem ha) rb (List.getElem?_mem hb)).mp hsim, ?_⟩
    · rw [List.getElem?_reverse (by simpa using show rs.length - 1 - b < rs.length by omega)]
      rw [show rs.length - 1 - (rs.length - 1 - b) = b by omega]
      exact hb
    · rw [List.getElem?_reverse (by simpa using show rs.length - 1 - a < rs.length by omega)]
      rw [show rs.length - 1 - (rs.length - 1 - a) = a by omega]
      exact ha
    · rcases hk' with h | h
      · right
        omega
      · left
        omega

theorem survivors_reverse (rs : List PredictionRecord) (t : ℚ)
    (hsym : ∀ r ∈ rs, ∀ s ∈ rs,
      (similarity (r.span.getD "") (s.span.getD "") ≥ t ↔
       similarity (s.span.getD "") (r.span.getD "") ≥ t)) :
    survivors rs.reverse t = (survivors rs t).reverse := by
  show (rs.reverse.enum.filter
      (fun p => decide (p.1 ∉ dropFinset rs.reverse t))).map Prod.snd = _
  rw [enum_reverse, List.filter_reverse, List.filter_map, List.map_reverse,
    List.map_map]
  have hfil : (rs.enum.filter
      ((fun p => decide (p.1 ∉ dropFinset rs.reverse t)) ∘
        (fun p => (rs.length - 1 - p.1, p.2))))
      = rs.enum.filter (fun p => decide (p.1 ∉ dropFinset rs t)) := by
    apply List.filter_congr
    intro x hx
    obtain ⟨i, r⟩ := x
    have hil : i < rs.length := by
      simpa using (List.mem_enumFrom hx).2.1
    show decide (rs.length - 1 - i ∉ dropFinset rs.reverse t)
        = decide (i ∉ dropFinset rs t)
    rw [decide_eq_decide]
    rw [dropFinset_reverse_mem rs t hsym (rs.length - 1 - i) (by omega)]
    rw [show rs.length - 1 - (rs.length - 1 - i) = i by omega]
  rw [hfil]
  rfl

set_option maxRecDepth 10000 in
/-- C7 counterexample: a two-record group sharing policy_id p on which
filter_results is not invariant under reversing the input order.  The
embedded SequenceMatcher ratio is asymmetric on these spans (3/7 one way,
2/7 the other), so at threshold 2/5 the original order drops both records
while the reversed order keeps both: the surviving sets differ. -/
theorem similarity_filter_not_reversal_invariant :
    similarity "abxeycd" "cdpabqe" = mkRat 3 7 ∧
    similarity "cdpabqe" "abxeycd" = mkRat 2 7 ∧
    filter_results [asymRecordA, asymRecordB] (mkRat 2 5) = Except.ok [] ∧
    filter_results [asymRecordB, asymRecordA] (mkRat 2 5)
      = Except.ok [asymRecordB, asymRecordA] :=
  ⟨by decide, by decide, by rfl, by rfl⟩

/-- C7 amended: on a record sequence with complete span/gold fields, the
filter is invariant under reversing the input order — the same records
survive, in reversed order — provided the similarity ratio crosses the
threshold symmetrically on every pair of the sequence's records (difflib's
ratio is not symmetric in general, so the unconditional claim fails). -/
theorem similarity_filter_reversal (results : List PredictionRecord) (t : ℚ)
    (hc : spanGoldComplete results)
    (hsym : ∀ r ∈ results, ∀ s ∈ results,
      (similarity (r.span.getD "") (s.span.getD "") ≥ t ↔
       similarity (s.span.getD "") (r.span.getD "") ≥ t)) :
    filter_results results t = Except.ok (survivors results t) ∧
    filter_results results.reverse t
      = Except.ok ((survivors results t).reverse) := by
  have hc' : spanGoldComplete results.reverse :=
    fun r hr => hc r (List.mem_reverse.mp hr)
  refine ⟨filter_results_ok _ _ hc, ?_⟩
  rw [filter_results_ok _ _ hc', survivors_reverse results t hsym]

set_option maxRecDepth 10000 in
/-- Witness for similarity_filter_reversal: the two example records have
symmetric ratios, so reversal only reverses the surviving list. -/
theorem similarity_filter_reversal_witness :
    spanGoldComplete [exRecord1, exRecord2] ∧
    (∀ r ∈ [exRecord1, exRecord2], ∀ s ∈ [exRecord1, exRecord2],
      (similarity (r.span.getD "") (s.span.getD "") ≥ mkRat 1 2 ↔
       similarity (s.span.getD "") (r.span.getD "") ≥ mkRat 1 2)) ∧
    (filter_results [exRecord1, exRecord2] (mkRat 1 2)
        = Except.ok (survivors [exRecord1, exRecord2] (mkRat 1 2)) ∧
     filter_results ([exRecord1, exRecord2] : List PredictionRecord).reverse (mkRat 1 2)
        = Except.ok ((survivors [exRecord1, exRecord2] (mkRat 1 2)).reverse)) :=
  ⟨by decide, by decide,
    similarity_filter_reversal [exRecord1, exRecord2] (mkRat 1 2)
      (by decide) (by decide)⟩

/-- C10: Similarity filter crashes on missing fields.  If two records at
distinct positions share a policy_id (possibly the placeholder none) and one
of them lacks its span or gold field, filter_results raises a KeyError — it
returns an error, never a filtered list; only a missing policy_id is
tolerated, through grouping under the placeholder. -/
theorem filter_results_keyerror (results : List PredictionRecord) (t : ℚ)
    (h : ∃ (a b : ℕ) (ra rb : PredictionRecord),
      results[a]? = some ra ∧ results[b]? = some rb ∧
      a ≠ b ∧ ra.policy_id = rb.policy_id ∧
      (ra.span = none ∨ ra.gold = none)) :
    ∃ msg, filter_results results t = Except.error msg := by
  obtain ⟨a, b, ra, rb, ha, hb, hne, hpp, hmiss⟩ := h
  have hda := getD_of_getElem? results a ra ha
  have hdb := getD_of_getElem? results b rb hb
  have key : ∃ ab ∈ groupPairs results,
      ∀ s, ∃ msg, pairStep results t s ab = Except.error msg := by
    rcases Nat.lt_or_ge a b with hab | hab
    · refine ⟨(a, b), (mem_groupPairs _ _ _).mpr ⟨ra, rb, ha, hb, hab, hpp⟩, ?_⟩
      intro s
      apply pairStep_error
      rcases hmiss with hm | hm
      · exact Or.inl (by rw [hda]; exact hm)
      · exact Or.inr (Or.inr (Or.inl (by rw [hda]; exact hm)))
    · have hab' : b < a := by omega
      refine ⟨(b, a), (mem_groupPairs _ _ _).mpr ⟨rb, ra, hb, ha, hab', hpp.symm⟩, ?_⟩
      intro s
      apply pairStep_error
      rcases hmiss with hm | hm
      · exact Or.inr (Or.inl (by rw [hda]; exact hm))
      · exact Or.inr (Or.inr (Or.inr (by rw [hda]; exact hm)))
  obtain ⟨ab, habp, herr⟩ := key
  obtain ⟨msg, hmsg⟩ := foldlM_pairStep_error results t (groupPairs results) ab habp herr ∅
  refine ⟨msg, ?_⟩
  show (to_drop results t).bind _ = _
  show ((groupPairs results).foldlM (pairStep results t) ∅).bind _ = _
  rw [hmsg]
  rfl

/-- Witness for filter_results_keyerror: two records sharing policy p, the
first missing its span. -/
theorem filter_results_keyerror_witness :
    (∃ (a b : ℕ) (ra rb : PredictionRecord),
      ([⟨some "p", none, some "A", none, []⟩,
        ⟨some "p", some "s", some "B", none, []⟩] :
          List PredictionRecord)[a]? = some ra ∧
      ([⟨some "p", none, some "A", none, []⟩,
        ⟨some "p", some "s", some "B", none, []⟩] :
          List PredictionRecord)[b]? = some rb ∧
      a ≠ b ∧ ra.policy_id = rb.policy_id ∧
      (ra.span = none ∨ ra.gold = none)) ∧
    (∃ msg, filter_results
      [⟨some "p", none, some "A", none, []⟩,
       ⟨some "p", some "s", some "B", none, []⟩] (mkRat 3 4)
        = Except.error msg) :=
  ⟨⟨0, 1, ⟨some "p", none, some "A", none, []⟩,
      ⟨some "p", some "s", some "B", none, []⟩,
      rfl, rfl, by decide, rfl, Or.inl rfl⟩,
    filter_results_keyerror _ (mkRat 3 4)
      ⟨0, 1, ⟨some "p", none, some "A", none, []⟩,
        ⟨some "p", some "s", some "B", none, []⟩,
        rfl, rfl, by decide, rfl, Or.inl rfl⟩⟩

theorem mapM_require_ok (records : List PredictionRecord)
    (f : PredictionRecord → Option String) (msg : String)
    (h : ∀ r ∈ records, (f r).isSome) :
    records.mapM (fun r => require (f r) msg)
      = Except.ok (records.map (fun r => (f r).getD "")) := by
  induction records with
  | nil => rfl
  | cons r records ih =>
      obtain ⟨g, hg⟩ := Option.isSome_iff_exists.mp (h r (by simp))
      rw [List.mapM_cons, ih (fun r' hr' => h r' (by simp [hr']))]
      simp [hg, require, Except.bind, bind, pure, Except.pure]

theorem evaluate_complete (combined : List (String × List PredictionRecord))
    (hcomp : ∀ e ∈ combined, ∀ r ∈ e.2, r.gold.isSome ∧ r.pred.isSome) :
    evaluate combined = Except.ok (combined.map (fun e =>
      (e.1, classificationReport (e.2.map (fun r => r.gold.getD ""))
        (e.2.map (fun r => r.pred.getD "")) FULL_LABEL_NAMES))) := by
  induction combined with
  | nil => rfl
  | cons e rest ih =>
      show List.mapM _ (e :: rest) = _
      rw [List.mapM_cons]
      have hg := mapM_require_ok e.2 (fun r => r.gold) "KeyError: gold"
        (fun r hr => (hcomp e (by simp) r hr).1)
      have hp := mapM_require_ok e.2 (fun r => r.pred) "KeyError: pred"
        (fun r hr => (hcomp e (by simp) r hr).2)
      have hrest := ih (fun e' he' r hr => hcomp e' (by simp [he']) r hr)
      unfold evaluate at hrest
      simp only [Except.bind, bind, pure, Except.pure] at hrest
      simp only [hg, hp, Except.bind, bind, pure, Except.pure, List.map_cons]
      rw [hrest]

theorem exceptBind_ok {α β : Type} (x : Except String α)
    (f : α → Except String β) (c : β) (h : x >>= f = Except.ok c) :
    ∃ b, x = Except.ok b ∧ f b = Except.ok c := by
  cases x with
  | error e =>
      exact absurd h (by simp [Bind.bind, Except.bind])
  | ok b =>
      refine ⟨b, rfl, ?_⟩
      simpa [Bind.bind, Except.bind] using h

theorem classificationReport_length (y_true y_pred : List String)
    (labels : List String) :
    (classificationReport y_true y_pred labels).length = labels.length + 1 := by
  simp [classificationReport]

/-- C4: Metrics snapshot completeness.  Whenever evaluate succeeds, every
per-model snapshot it returns has exactly one entry per taxonomy label plus
the single macro-average entry — length 12 + 1 — whatever gold or predicted
values appear in the records. -/
theorem metrics_snapshot_complete (combined : List (String × List PredictionRecord))
    (out : List (String × Snapshot)) (h : evaluate combined = Except.ok out) :
    ∀ e ∈ out, e.2.length = FULL_LABEL_NAMES.length + 1 := by
  induction combined generalizing out with
  | nil =>
      have h' : Except.ok ([] : List (String × Snapshot)) = Except.ok out := h
      injection h' with h''
      subst h''
      intro e he
      simp at he
  | cons e rest ih =>
      rw [show evaluate (e :: rest) = List.mapM (fun e' => do
            let y_true ← e'.2.mapM (fun r => require r.gold "KeyError: gold")
            let y_pred ← e'.2.mapM (fun r => require r.pred "KeyError: pred")
            pure (e'.1, classificationReport y_true y_pred FULL_LABEL_NAMES))
          (e :: rest) from rfl, List.mapM_cons] at h
      obtain ⟨y, hy, hrest⟩ := exceptBind_ok _ _ _ h
      obtain ⟨ys, hys, hpure⟩ := exceptBind_ok _ _ _ hrest
      have hout : out = y :: ys := by
        have : Except.ok (y :: ys) = Except.ok out := hpure
        injection this with h''
        exact h''.symm
      obtain ⟨yt, hyt, hy2⟩ := exceptBind_ok _ _ _ hy
      obtain ⟨yp, hyp, hy3⟩ := exceptBind_ok _ _ _ hy2
      have hyv : y = (e.1, classificationReport yt yp FULL_LABEL_NAMES) := by
        have : Except.ok (e.1, classificationReport yt yp FULL_LABEL_NAMES)
            = Except.ok y := hy3
        injection this with h''
        exact h''.symm
      subst hout
      intro x hx
      rcases List.mem_cons.mp hx with hx | hx
      · subst hx
        rw [hyv]
        exact classificationReport_length yt yp FULL_LABEL_NAMES
      · exact ih ys hys x hx

/-- Witness for metrics_snapshot_complete at a one-model input with no
records. -/
theorem metrics_snapshot_complete_witness :
    evaluate [("m", [])]
      = Except.ok [("m", classificationReport [] [] FULL_LABEL_NAMES)] ∧
    (∀ e ∈ [("m", classificationReport [] [] FULL_LABEL_NAMES)],
      e.2.length = FULL_LABEL_NAMES.length + 1) :=
  ⟨rfl, metrics_snapshot_complete [("m", [])] _ rfl⟩

theorem labelScores_zero (y_true y_pred : List String) (label : String)
    (hg : ∀ g ∈ y_true, g ≠ label) (hp : ∀ g ∈ y_pred, g ≠ label) :
    labelScores y_true y_pred label = ⟨0, 0, 0, 0⟩ := by
  have hTP : tpCount y_true y_pred label = 0 := by
    rw [tpCount, List.countP_eq_zero]
    rintro ⟨a, b⟩ hq
    have ha := (List.of_mem_zip hq).1
    simp only [Bool.and_eq_true, beq_iff_eq, not_and]
    intro h1
    exact absurd h1 (hg a ha)
  have hFP : fpCount y_true y_pred label = 0 := by
    rw [fpCount, List.countP_eq_zero]
    rintro ⟨a, b⟩ hq
    have hb := (List.of_mem_zip hq).2
    simp only [Bool.and_eq_true, beq_iff_eq, not_and]
    intro h1
    exact absurd h1 (hp b hb)
  have hFN : fnCount y_true y_pred label = 0 := by
    rw [fnCount, List.countP_eq_zero]
    rintro ⟨a, b⟩ hq
    have ha := (List.of_mem_zip hq).1
    simp only [Bool.and_eq_true, beq_iff_eq, not_and]
    intro h1
    exact absurd h1 (hg a ha)
  rw [labelScores]
  simp only [hTP, hFP, hFN]
  norm_num

theorem lookup_map_entry (combined : List (String × List PredictionRecord))
    (g : String × List PredictionRecord → Snapshot) (m : String)
    (records : List PredictionRecord)
    (hnd : (combined.map Prod.fst).Nodup) (hmem : (m, records) ∈ combined) :
    List.lookup m (combined.map (fun e => (e.1, g e))) = some (g (m, records)) := by
  induction combined with
  | nil => simp at hmem
  | cons e rest ih =>
      obtain ⟨k, v⟩ := e
      rw [List.map_cons, lookup_cons_kv]
      rw [List.map_cons, List.nodup_cons] at hnd
      by_cases hk : m = k
      · rw [if_pos hk]
        have he : (k, v) = (m, records) := by
          rcases List.mem_cons.mp hmem with he | he
          · exact he.symm
          · exfalso
            exact hnd.1 (hk ▸ List.mem_map.mpr ⟨(m, records), he, rfl⟩)
        rw [he]
      · rw [if_neg hk]
        have hmem' : (m, records) ∈ rest := by
          rcases List.mem_cons.mp hmem with he | he
          · exact absurd (congrArg Prod.fst he) hk
          · exact he
        exact ih hnd.2 hmem'

theorem lookup_label_map (y_true y_pred : List String)
    (labels : List String) (label : String) (hmem : label ∈ labels) :
    List.lookup label (labels.map (fun ℓ => (ℓ, labelScores y_true y_pred ℓ)))
      = some (labelScores y_true y_pred label) := by
  induction labels with
  | nil => simp at hmem
  | cons ℓ ls ih =>
      rw [List.map_cons, lookup_cons_kv]
      by_cases h : label = ℓ
      · rw [if_pos h, h]
      · rw [if_neg h]
        exact ih (by rcases List.mem_cons.mp hmem with h' | h'
                     · exact absurd h' h
                     · exact h')

theorem lookup_append_left {β : Type} (a : String) (l₁ l₂ : List (String × β))
    (b : β) (h : List.lookup a l₁ = some b) :
    List.lookup a (l₁ ++ l₂) = some b := by
  induction l₁ with
  | nil => simp [List.lookup] at h
  | cons e l₁ ih =>
      obtain ⟨k, v⟩ := e
      rw [List.cons_append, lookup_cons_kv]
      rw [lookup_cons_kv] at h
      by_cases hk : a = k
      · rw [if_pos hk]
        rw [if_pos hk] at h
        exact h
      · rw [if_neg hk]
        rw [if_neg hk] at h
        exact ih h

theorem lookup_label_report (y_true y_pred : List String)
    (labels : List String) (label : String) (hmem : label ∈ labels) :
    List.lookup label (classificationReport y_true y_pred labels)
      = some (labelScores y_true y_pred label) :=
  lookup_append_left label _ _ _ (lookup_label_map y_true y_pred labels label hmem)

/-- C3: Metrics zero-division safety.  For a taxonomy label with zero gold
and zero predicted instances among a model's records, evaluate succeeds and
that model's snapshot carries the entry precision 0, recall 0, f1-score 0,
support 0 for the label — the zero denominators are scored 0 by policy and
the label is never omitted. -/
theorem metrics_zero_label (combined : List (String × List PredictionRecord))
    (m : String) (records : List PredictionRecord) (label : String)
    (hmem : (m, records) ∈ combined)
    (hnd : (combined.map Prod.fst).Nodup)
    (hcomp : ∀ e ∈ combined, ∀ r ∈ e.2, r.gold.isSome ∧ r.pred.isSome)
    (hlab : label ∈ FULL_LABEL_NAMES)
    (hg : ∀ r ∈ records, r.gold ≠ some label)
    (hp : ∀ r ∈ records, r.pred ≠ some label) :
    ∃ out snap, evaluate combined = Except.ok out ∧
      List.lookup m out = some snap ∧
      List.lookup label snap = some ⟨0, 0, 0, 0⟩ := by
  refine ⟨_, _, evaluate_complete combined hcomp, lookup_map_entry combined
    (fun e => classificationReport (e.2.map (fun r => r.gold.getD ""))
      (e.2.map (fun r => r.pred.getD "")) FULL_LABEL_NAMES) m records hnd hmem, ?_⟩
  rw [lookup_label_report _ _ _ _ hlab]
  rw [labelScores_zero]
  · intro g hgm
    rcases List.mem_map.mp hgm with ⟨r, hr, hge⟩
    obtain ⟨g₀, hg₀⟩ :=
      Option.isSome_iff_exists.mp (hcomp (m, records) hmem r hr).1
    intro hc
    apply hg r hr
    rw [hg₀]
    rw [hg₀] at hge
    simp only [Option.getD_some] at hge
    rw [hge, hc]
  · intro g hgm
    rcases List.mem_map.mp hgm with ⟨r, hr, hge⟩
    obtain ⟨g₀, hg₀⟩ :=
      Option.isSome_iff_exists.mp (hcomp (m, records) hmem r hr).2
    intro hc
    apply hp r hr
    rw [hg₀]
    rw [hg₀] at hge
    simp only [Option.getD_some] at hge
    rw [hge, hc]

/-- Witness for metrics_zero_label: a single model with no records, so the
first taxonomy label has zero gold and zero predicted instances. -/
theorem metrics_zero_label_witness :
    (("m", ([] : List PredictionRecord)) ∈
      [("m", ([] : List PredictionRecord))]) ∧
    (([("m", ([] : List PredictionRecord))].map Prod.fst).Nodup) ∧
    (∀ e ∈ [("m", ([] : List PredictionRecord))], ∀ r ∈ e.2,
      r.gold.isSome ∧ r.pred.isSome) ∧
    ("Updated Privacy Policy" ∈ FULL_LABEL_NAMES) ∧
    (∀ r ∈ ([] : List PredictionRecord), r.gold ≠ some "Updated Privacy Policy") ∧
    (∀ r ∈ ([] : List PredictionRecord), r.pred ≠ some "Updated Privacy Policy") ∧
    (∃ out snap, evaluate [("m", ([] : List PredictionRecord))] = Except.ok out ∧
      List.lookup "m" out = some snap ∧
      List.lookup "Updated Privacy Policy" snap = some ⟨0, 0, 0, 0⟩) :=
  ⟨by decide, by decide, by decide, by decide, by decide, by decide,
    metrics_zero_label [("m", [])] "m" [] "Updated Privacy Policy"
      (by decide) (by decide) (by decide) (by decide) (by decide) (by decide)⟩

/-- C5: Concrete metrics example over the engine core (classificationReport
with the reduced two-label taxonomy of the spec's end-to-end example 2):
gold/pred pairs (X,X), (Y,X), (X,X) give label X TP=2, FP=1, FN=0 with
precision 2/3 and recall 1, and label Y TP=0, FP=0, FN=1 with precision 0
and recall 0. -/
theorem metrics_concrete_example :
    tpCount ["X", "Y", "X"] ["X", "X", "X"] "X" = 2 ∧
    fpCount ["X", "Y", "X"] ["X", "X", "X"] "X" = 1 ∧
    fnCount ["X", "Y", "X"] ["X", "X", "X"] "X" = 0 ∧
    tpCount ["X", "Y", "X"] ["X", "X", "X"] "Y" = 0 ∧
    fpCount ["X", "Y", "X"] ["X", "X", "X"] "Y" = 0 ∧
    fnCount ["X", "Y", "X"] ["X", "X", "X"] "Y" = 1 ∧
    ((List.lookup "X"
        (classificationReport ["X", "Y", "X"] ["X", "X", "X"] ["X", "Y"])).map
      Scores.precision) = some (mkRat 2 3) ∧
    ((List.lookup "X"
        (classificationReport ["X", "Y", "X"] ["X", "X", "X"] ["X", "Y"])).map
      Scores.«recall») = some (mkRat 1 1) ∧
    ((List.lookup "Y"
        (classificationReport ["X", "Y", "X"] ["X", "X", "X"] ["X", "Y"])).map
      Scores.precision) = some 0 ∧
    ((List.lookup "Y"
        (classificationReport ["X", "Y", "X"] ["X", "X", "X"] ["X", "Y"])).map
      Scores.«recall») = some 0 := by
  decide

/-- C8: Delta zero-identity.  print_delta comparing a metrics mapping with
itself renders, for every common model, the delta triple (0, 0, 0) for
every taxonomy label row and for the macro-average row. -/
theorem delta_zero_identity (metrics : List (String × Snapshot)) :
    print_delta metrics metrics
      = (commonModels metrics metrics).map (fun m =>
          (m, (FULL_LABEL_NAMES.map (fun label => (label, ((0:ℚ), 0, 0))),
            ((0:ℚ), 0, 0)))) := by
  unfold print_delta
  apply List.map_congr_left
  intro m _
  have hz : ∀ s : Option Scores, deltaTriple s s = (0, 0, 0) := by
    intro s
    unfold deltaTriple
    simp
  simp only [hz]
